import Mathlib

/-!
Verification of the physician-bio text parser (the script embedded in the
repository).  All JavaScript string heuristics are modelled on `List Char`
with `String` wrappers; regular expressions are translated by hand into
character-level scanners, as explained in the comments next to each
definition.  JS `toLowerCase`/`toUpperCase`/`\s` are modelled by the ASCII
`Char.toLower`/`Char.toUpper`/`Char.isWhitespace` (all text handled by the
heuristics is ASCII apart from the bullet glyphs, which are case-stable).
-/

namespace PhysicianBio

/-- ASCII model of the JS whitespace class. -/
def isWsC (c : Char) : Bool := c.isWhitespace

/-- The apostrophe character (part of the name character class). -/
def apoChar : Char := Char.ofNat 39

/-- JS word character class `\w` = `[A-Za-z0-9_]`. -/
def isWordChar (c : Char) : Bool := c.isAlphanum || c == '_'

/-- `pat` occurs at the very start of `s` (character-wise). -/
def startsL : List Char → List Char → Bool
  | [], _ => true
  | _ :: _, [] => false
  | p :: ps, c :: cs => p == c && startsL ps cs

/-- `pat` occurs somewhere in `s` (substring test, as JS `includes` /
an unanchored regex literal). -/
def containsSubL (pat : List Char) : List Char → Bool
  | [] => startsL pat []
  | c :: cs => startsL pat (c :: cs) || containsSubL pat cs

/-- Lowercase every character (model of JS `toLowerCase`). -/
def lowerStr (s : String) : String := String.mk (s.data.map Char.toLower)

/-- Trim whitespace from both ends of a character list (JS `trim`). -/
def trimL (l : List Char) : List Char :=
  ((l.dropWhile isWsC).reverse.dropWhile isWsC).reverse

/-- JS `String.prototype.trim`. -/
def jsTrim (s : String) : String := String.mk (trimL s.data)

/-- Case-insensitive substring test: `/pat/i.test(s)` for a literal
lowercase `pat`. -/
def containsCI (s : String) (pat : String) : Bool :=
  containsSubL pat.data (lowerStr s).data

/-- `s.toLowerCase().startsWith(pat)` for a lowercase literal `pat`. -/
def startsWithCI (s : String) (pat : String) : Bool :=
  startsL pat.data (lowerStr s).data

/-- Split a character list at every character satisfying `p`
(JS `split` on a single-character class; empty pieces are kept,
as JS does). -/
def splitP (p : Char → Bool) (cur : List Char) : List Char → List (List Char)
  | [] => [cur.reverse]
  | c :: cs => if p c then cur.reverse :: splitP p [] cs else splitP p (c :: cur) cs

/-- JS `join(sep)`. -/
def joinWith (sep : String) : List String → String
  | [] => ""
  | x :: xs => xs.foldl (fun acc y => acc ++ sep ++ y) x

/-- JS `a || b` on strings where `b` is the fallback. -/
def jsOr (a b : String) : String := if a = "" then b else a

/-!  Basic text utilities of the source script. -/

/-- `clean(text)`: strip every CR, turn every tab into a single space and
trim the whole text. -/
def clean (text : String) : String :=
  String.mk (trimL ((text.data.filter (fun c => c != '\r')).map
    (fun c => if c = '\t' then ' ' else c)))

/-- `replace(/\s+/g, " ")`: every maximal whitespace run becomes one space.
The flag records whether the previous character was whitespace (the run is
already represented by an emitted space). -/
def collapseAux (prevWs : Bool) : List Char → List Char
  | [] => []
  | c :: cs =>
    if isWsC c then
      if prevWs then collapseAux true cs else ' ' :: collapseAux true cs
    else c :: collapseAux false cs

def collapseWs (l : List Char) : List Char := collapseAux false l

/-- `normalizeSpaces(s)`: `s.replace(/\s+/g, " ").trim()`. -/
def normalizeSpaces (s : String) : String :=
  String.mk (trimL (collapseWs s.data))

/-- `titleCase(s)`: `s.replace(/\w\S*/g, t => t.charAt(0).toUpperCase() + t.slice(1))`.
A match starts at a `\w` character that is not inside the previous match and
consumes the whole non-space run; the state records whether we are inside a
consumed run. -/
def titleCaseAux (inTok : Bool) : List Char → List Char
  | [] => []
  | c :: cs =>
    if isWsC c then c :: titleCaseAux false cs
    else if inTok then c :: titleCaseAux true cs
    else if isWordChar c then c.toUpper :: titleCaseAux true cs
    else c :: titleCaseAux false cs

def titleCase (s : String) : String := String.mk (titleCaseAux false s.data)

/-- The bullet glyph characters recognized by `/[•·]/`. -/
def hasBulletL (l : List Char) : Bool := l.contains '•' || l.contains '·'

/-- Character class `[a-z\)]` on the left of a missing-separator boundary. -/
def isBoundLeft (c : Char) : Bool := c.isLower || c == ')'

/-- `replace(/([a-z\)])([A-Z])/g, "$1 • $2")`: insert a bulleted separator
between a lowercase letter (or close paren) and an uppercase letter.  The JS
scan resumes after the uppercase letter, but an uppercase letter can never
open the next match, so re-examining it is equivalent. -/
def insBul : List Char → List Char
  | [] => []
  | [c] => [c]
  | a :: b :: rest =>
    if isBoundLeft a && b.isUpper then a :: ' ' :: '•' :: ' ' :: insBul (b :: rest)
    else a :: insBul (b :: rest)

/-- `fixSpecialtyFormatting(s)` from the source. -/
def fixSpecialtyFormatting (s : String) : String :=
  if s = "" then ""
  else
    let out := trimL s.data
    if hasBulletL out then String.mk out
    else String.mk (collapseWs (insBul out))

/-- Deduplicate keeping first-seen order (JS `Array.from(new Set(parts))`). -/
def dedupAux (seen : List String) : List String → List String
  | [] => []
  | x :: xs => if seen.contains x then dedupAux seen xs else x :: dedupAux (x :: seen) xs

/-- Separator class `[,/;| ]` of `parseLanguages`. -/
def isLangSep (c : Char) : Bool :=
  c == ',' || c == '/' || c == ';' || c == '|' || c == ' '

/-- Insert a comma at every lowercase-to-uppercase boundary:
`replace(/([a-z])([A-Z])/g, "$1,$2")` (same resume argument as `insBul`). -/
def insComma : List Char → List Char
  | [] => []
  | [c] => [c]
  | a :: b :: rest =>
    if a.isLower && b.isUpper then a :: ',' :: insComma (b :: rest)
    else a :: insComma (b :: rest)

/-- `parseLanguages(s)` from the source. -/
def parseLanguages (s : String) : String :=
  let s1 := jsTrim (String.mk ((normalizeSpaces s).data.map
    (fun c => if c = '•' then ' ' else c)))
  let s2 := String.mk (insComma s1.data)
  let parts := ((splitP isLangSep [] s2.data).map
    (fun cs => jsTrim (String.mk cs))).filter (fun p => p ≠ "")
  let uniq := dedupAux [] (parts.map titleCase)
  joinWith ", " uniq

/-!  The line normalizer `lines(text)`. -/

/-- The heading phrases of the single-blob injection regex, with each
optional-`s?` alternative expanded greedily (`s` first), in the source's
alternation order; matching is case-sensitive. -/
def INJECT_PHRASES : List String :=
  ["Johns Hopkins Medicine", "Back to search", "Share:", "Print", "Locations",
   "Languages", "Gender", "Education", "Background",
   "Board Certifications", "Board Certification",
   "Memberships", "Membership",
   "Professional Titles", "Professional Title",
   "Primary Academic Title"]

/-- Length of the first phrase (in alternation order) matching at the head
of `l`, if any. -/
def phraseAt (l : List Char) : Option Nat :=
  (INJECT_PHRASES.map String.data).findSome?
    (fun p => if startsL p l then some p.length else none)

/-- One left-to-right pass of `replace(/(ph1|ph2|…)/g, "\n$1")`: a newline is
inserted before each phrase occurrence and scanning resumes after it.  Fuel
is the length of the list. -/
def injAux : Nat → List Char → List Char
  | 0, _ => []
  | _ + 1, [] => []
  | fuel + 1, c :: cs =>
    match phraseAt (c :: cs) with
    | some n => '\n' :: ((c :: cs).take n ++ injAux fuel ((c :: cs).drop n))
    | none => c :: injAux fuel cs

def injectHeadings (t : String) : String :=
  String.mk (injAux t.data.length t.data)

/-- `clean` followed by conversion of U+2028/U+2029 to newline — the text on
which the no-newline test of `lines` is made. -/
def normNewlines (text : String) : String :=
  String.mk ((clean text).data.map
    (fun c => if c = Char.ofNat 0x2028 || c = Char.ofNat 0x2029 then '\n' else c))

/-- A line survives the final filter of `lines`: non-empty and not a
`show more` / `show less` artifact (case-insensitive full match). -/
def keepLine (s : String) : Bool :=
  s ≠ "" && lowerStr s ≠ "show more" && lowerStr s ≠ "show less"

/-- Split on newline, trim each piece, drop empty/artifact lines — the final
pipeline of `lines`, applied to an already normalized text. -/
def splitTrimFilter (t : String) : List String :=
  (((splitP (fun c => c == '\n') [] t.data).map
    (fun cs => jsTrim (String.mk cs))).filter keepLine)

/-- `lines(text)` from the source: normalize newlines, inject headings only
when the text has no newline at all, then split/trim/filter. -/
def lines (text : String) : List String :=
  let t := normNewlines text
  let t2 := if t.data.contains '\n' then t else injectHeadings t
  splitTrimFilter t2

/-!  Heading index: the global stop vocabulary, `extractHeadingBlock` and
`findHeading`. -/

/-- The source's `GLOBAL_STOP_HEADINGS` literal, in order, before the final
`.map(h => h.toLowerCase())`. -/
def GLOBAL_STOP_RAW : List String :=
  ["languages", "language", "gender", "professional titles",
   "primary academic title", "about", "background", "education",
   "board certifications", "board certification", "memberships", "membership",
   "videos", "selected publications", "locations", "experience", "expertise",
   "conditions treated", "treatments & procedures", "treatments and procedures",
   "procedures", "in-network plans", "age groups seen", "insurance",
   "ratings & reviews", "ratings", "reviews", "graduate program affiliations",
   "linkedin", "professional activities",
   "clinical trial keywords", "clinical trials summary", "research interests",
   "lab website", "contact for research inquiries", "find a clinical trial",
   "centers and institutes", "recent news articles and media coverage",
   "additional academic titles", "lab website", "x (twitter)", "twitter",
   "schedule appointment", "schedule an appointment",
   "language assistance available", "contact & privacy information",
   "price transparency", "terms & conditions of use",
   "non-discrimination notice", "follow on facebook", "follow on twitter",
   "follow on linkedin", "follow on instagram", "follow on youtube",
   "follow on weibo"]

def GLOBAL_STOP_HEADINGS : List String := GLOBAL_STOP_RAW.map lowerStr

/-- The stop list used inside `extractHeadingBlock`: the global vocabulary
plus the lowercased extra stop phrases. -/
def stopsFor (extra : List String) : List String :=
  GLOBAL_STOP_HEADINGS ++ extra.map lowerStr

/-- A line's lowercase text starts with one of the stop phrases. -/
def isStopLine (stops : List String) (l : String) : Bool :=
  stops.any (fun h => startsL h.data (lowerStr l).data)

/-- The collection loop of `extractHeadingBlock`: push lines until one
starts (case-insensitively) with a stop phrase. -/
def ehbLoop (stops : List String) : List String → List String
  | [] => []
  | l :: rest => if isStopLine stops l then [] else l :: ehbLoop stops rest

/-- `extractHeadingBlock(rawLines, startIdx, extraStopHeadings)`. -/
def extractHeadingBlock (rawLines : List String) (startIdx : Nat)
    (extraStopHeadings : List String) : List String :=
  ehbLoop (stopsFor extraStopHeadings) (rawLines.drop (startIdx + 1))

/-- `findHeading(rawLines, headingVariants)`: index of the first line whose
lowercase text starts with one of the lowercased variants (`-1` becomes
`none`). -/
def findHeading (rawLines : List String) (headingVariants : List String) :
    Option Nat :=
  rawLines.findIdx?
    (fun ln => (headingVariants.map lowerStr).any
      (fun k => startsL k.data (lowerStr ln).data))

/-- `joinBlock(block)`. -/
def joinBlock (block : List String) : String :=
  joinWith " " (block.map normalizeSpaces)

/-!  Field extractors: education pairs and bullet lists. -/

/-- One iteration of the `parseEducation` loop on the pair
`(block[i], block[i+1])`. -/
def pairItem (a b : String) : List String :=
  let line1 := normalizeSpaces a
  let line2 := normalizeSpaces b
  if line1 = "" ∧ line2 = "" then []
  else if line1 ≠ "" ∧ line2 ≠ "" then [line1 ++ " — " ++ line2]
  else [jsOr line1 line2]

/-- `parseEducation(block)`: consume the block two lines at a time
(`block[i+1] || ""` is the empty string past the end). -/
def parseEducation : List String → List String
  | [] => []
  | [a] => pairItem a ""
  | a :: b :: rest => pairItem a b ++ parseEducation rest

/-- `parseList(block)`: normalize, strip a leading bullet (`^•\s*`), trim,
drop empties. -/
def parseList (block : List String) : List String :=
  (block.map (fun s =>
    let n := (normalizeSpaces s).data
    let n2 := match n with
      | c :: rest => if c = '•' then rest.dropWhile isWsC else n
      | [] => n
    jsTrim (String.mk n2))).filter (fun s => s ≠ "")

/-!  Name / credential / specialty detection. -/

/-- Name-token character class `[a-zA-Z.'-]`. -/
def isNameClass (c : Char) : Bool :=
  c.isAlpha || c == '.' || c == apoChar || c == '-'

/-- `^[A-Z][a-zA-Z.'-]+$`: a capitalized word of at least two characters. -/
def okCap : List Char → Bool
  | [] => false
  | c :: rest => c.isUpper && !rest.isEmpty && rest.all isNameClass

/-- `^[a-z]{1,3}[A-Z][a-zA-Z.'-]+$` with exactly `j` lowercase prefix
characters. -/
def okLowCap (j : Nat) (cs : List Char) : Bool :=
  (cs.take j).length == j && (cs.take j).all Char.isLower && okCap (cs.drop j)

/-- The `okWord` predicate of `isLikelyName` (the bounded repetition
`{1,3}` is a three-way disjunction for a boolean test). -/
def okWord (p : String) : Bool :=
  okCap p.data || okLowCap 1 p.data || okLowCap 2 p.data || okLowCap 3 p.data

/-- `s.split(/\s+/)` for a trimmed `s`: the non-empty maximal runs of
non-whitespace characters. -/
def wsTokens (l : List Char) : List (List Char) :=
  (splitP isWsC [] l).filter (fun t => !t.isEmpty)

/-- `isLikelyName(line)` from the source. -/
def isLikelyName (line : String) : Bool :=
  let s := jsTrim line
  if s = "" then false
  else if containsCI s "johns hopkins medicine" then false
  else if containsCI s "loading complete" then false
  else if containsCI s "accepting new patients" then false
  else if containsCI s "out of 5 stars" then false
  else if containsCI s "rating" then false
  else
    let parts := wsTokens s.data
    if parts.length < 2 || parts.length > 6 then false
    else parts.all (fun p => okWord (String.mk p))

/-- `isNoiseForSpecialty(line)` from the source (each `/…/i` test is an
unanchored case-insensitive substring test; `stars?` needs only `star`). -/
def isNoiseForSpecialty (line : String) : Bool :=
  let s := jsTrim line
  if s = "" then true
  else
    containsCI s "accepting new patients" || containsCI s "online booking" ||
    containsCI s "out of 5 star" ||
    containsCI s "ratings" || containsCI s "reviews" ||
    containsCI s "highlights" || containsCI s "age groups seen" ||
    containsCI s "languages" || containsCI s "in-network plans"

/-- The `credTokens` vocabulary of `findNameAndSpecialty`, in source order. -/
def credTokens : List String :=
  ["MD", "DO", "MBBS", "MBBCh", "MBBChBAO", "BMBCh", "BM BCh", "MBChB",
   "DDS", "DMD", "PharmD", "PhD", "ScD", "DrPH", "DPH", "DVM", "VMD", "VetMB",
   "JD", "MBA", "MPA", "MSHA",
   "MA", "MS", "MSc", "MSE", "MAS", "MEd", "MHS", "MPhil", "M Math", "SM",
   "ScM", "AM", "Laurea", "Master of Biotechnology", "MSCE", "MSCI",
   "MPH", "MSPH", "MHSc",
   "DNP", "CNM", "CRNP", "NP", "CNP", "FNP", "APRN",
   "DPT", "MPT", "OTD", "OT", "SLP", "OD", "DPM", "MGC", "MSW", "MBE", "MBI",
   "RD", "ScM", "FACC", "FSCAI", "AuD"]

/-- `\btok\b` occurs in `s`: the token occurs as a substring with a word
boundary on each side (every vocabulary token begins and ends with a word
character, so the boundaries reduce to the neighbours not being word
characters).  `prev` is the character just before the current position. -/
def hasBoundedTokAux (tok : List Char) (prev : Option Char) : List Char → Bool
  | [] => false
  | c :: cs =>
    (startsL tok (c :: cs) &&
      (match prev with | none => true | some p => !isWordChar p) &&
      (match (c :: cs).drop tok.length with
       | [] => true
       | d :: _ => !isWordChar d)) ||
    hasBoundedTokAux tok (some c) cs

def hasBoundedTok (tok : List Char) (s : List Char) : Bool :=
  hasBoundedTokAux tok none s

/-- The result record of `findNameAndSpecialty`. -/
structure NameSpec where
  name : String
  creds : String
  specialty : String
deriving DecidableEq, Repr

/-- The tail of `/^(.+?),\s*(.+)$/`: after the comma, `\s*` is greedy but
gives one character back when nothing would remain for `(.+)`. -/
def m2of (post : List Char) : List Char :=
  let d := post.dropWhile isWsC
  if d.isEmpty then
    match post.getLast? with
    | some c => [c]
    | none => []
  else d

/-- `next.match(/^(.+?),\s*(.+)$/)`: the lazy `(.+?)` makes the split comma
the first comma at index ≥ 1 that still leaves at least one character after
it. -/
def goComma (acc : List Char) : List Char → Option (String × String)
  | [] => none
  | c :: cs =>
    if c = ',' ∧ ¬cs.isEmpty then some (String.mk acc.reverse, String.mk (m2of cs))
    else goComma (c :: acc) cs

def commaSplitLazy (s : String) : Option (String × String) :=
  match s.data with
  | [] => none
  | c :: rest => goComma [c] rest

/-- `name.split(/\s+/)[0].toLowerCase()` for a trimmed `name`. -/
def firstWordLower (s : String) : String :=
  String.mk ((s.data.takeWhile (fun c => !isWsC c)).map Char.toLower)

/-- Strategy 1 likely-name scan: first index in the 12-line window after
`Print` whose line passes `isLikelyName`.  Fuel is the window size. -/
def findLikeIdx (ls : List String) (i : Nat) : Nat → Option Nat
  | 0 => none
  | fuel + 1 =>
    if isLikelyName (ls.getD i "") then some i
    else findLikeIdx ls (i + 1) fuel

/-- The specialty scan of strategy 1 (`j` from `i+1`, at most 7 iterations,
a colon line is skipped with `continue`). -/
def specScan1 (ls : List String) (nm : String) (j : Nat) : Nat → Option String
  | 0 => none
  | fuel + 1 =>
    if j < ls.length then
      let cand := jsTrim (ls.getD j "")
      if cand = "" ∨ isNoiseForSpecialty cand then specScan1 ls nm (j + 1) fuel
      else if containsCI cand "johns hopkins" then specScan1 ls nm (j + 1) fuel
      else if nm ≠ "" ∧ containsSubL (lowerStr nm).data (lowerStr cand).data then
        specScan1 ls nm (j + 1) fuel
      else if cand.data.contains ':' then specScan1 ls nm (j + 1) fuel
      else if cand.length > 200 then specScan1 ls nm (j + 1) fuel
      else some cand
    else none

/-- Strategy 1 of `findNameAndSpecialty`: the structured header pattern
around a standalone `Print` line. -/
def strat1 (ls : List String) : NameSpec :=
  let idxPrint := ls.findIdx? (fun l => lowerStr (jsTrim l) == "print")
  let startIdx := match idxPrint with | some i => i + 1 | none => 0
  let endIdx := min (startIdx + 12) ls.length
  match findLikeIdx ls startIdx (endIdx - startIdx) with
  | none => ⟨"", "", ""⟩
  | some i =>
    let name := jsTrim (ls.getD i "")
    let creds :=
      if i + 1 < ls.length then
        match commaSplitLazy (jsTrim (ls.getD (i + 1) "")) with
        | some (m1, m2) =>
          if firstWordLower name == firstWordLower m1 then jsTrim m2 else ""
        | none => ""
      else ""
    ⟨name, creds, (specScan1 ls name (i + 1) 7).getD ""⟩

/-- Split at the first comma of the list, if any. -/
def splitFirstComma : List Char → Option (List Char × List Char)
  | [] => none
  | c :: cs =>
    if c = ',' then some ([], cs)
    else
      match splitFirstComma cs with
      | some (pre, post) => some (c :: pre, post)
      | none => none

/-- The suffix alternatives `Jr\.?|Sr\.?|II|III|IV|V` (greedy `\.?`
expanded). -/
def NAME_SUFFIXES : List String := ["Jr.", "Jr", "Sr.", "Sr", "II", "III", "IV", "V"]

/-- A word of the strategy-2 name regex: `[A-Z][A-Za-z.'-]+`. -/
def isWordTok (t : List Char) : Bool := okCap t

/-- `l.head?` and `l.getLast?` are both non-whitespace (so the whole list is
its own trim). -/
def edgesNonWs (l : List Char) : Bool :=
  match l.head?, l.getLast? with
  | some a, some b => !isWsC a && !isWsC b
  | _, _ => false

/-- The part of `/^([A-Z][A-Za-z.'-]+(?:\s+[A-Z][A-Za-z.'-]+)*(?:\s+(Jr\.?|Sr\.?|II|III|IV|V))?),…/`
before the comma must be matched exactly.  None of the word class, `\s` and
the suffixes contain a comma, so the regex comma is the first comma of the
line; the prefix before it matches exactly when it has no edge whitespace
and its whitespace-separated tokens are all words, or all words followed by
one suffix token. -/
def namePrefixOk (pre : List Char) : Bool :=
  edgesNonWs pre &&
    (let ts := wsTokens pre
     !ts.isEmpty &&
       (ts.all isWordTok ||
        (decide (2 ≤ ts.length) && ts.dropLast.all isWordTok &&
         (NAME_SUFFIXES.map String.data).contains (ts.getLastD []))))

/-- `ln.match(/^([A-Z][A-Za-z.'-]+(?:\s+[A-Z][A-Za-z.'-]+)*(?:\s+(Jr\.?|Sr\.?|II|III|IV|V))?),\s*(.+)$/)`:
returns `(m[1], m[3])`. -/
def bigNameMatch (ln : String) : Option (String × String) :=
  match splitFirstComma ln.data with
  | none => none
  | some (pre, post) =>
    if post.isEmpty then none
    else if namePrefixOk pre then some (String.mk pre, String.mk (m2of post))
    else none

/-- The specialty scan of strategy 2 (same window as strategy 1, but a colon
line stops the scan with `break`). -/
def specScan2 (ls : List String) (nm : String) (j : Nat) : Nat → Option String
  | 0 => none
  | fuel + 1 =>
    if j < ls.length then
      let nxt := jsTrim (ls.getD j "")
      if nxt = "" then specScan2 ls nm (j + 1) fuel
      else if isNoiseForSpecialty nxt then specScan2 ls nm (j + 1) fuel
      else if containsCI nxt "johns hopkins" then specScan2 ls nm (j + 1) fuel
      else if nm ≠ "" ∧ containsSubL (lowerStr nm).data (lowerStr nxt).data then
        specScan2 ls nm (j + 1) fuel
      else if nxt.data.contains ':' then none
      else if nxt.length > 200 then specScan2 ls nm (j + 1) fuel
      else some nxt
    else none

/-- The strategy 2 header scan: first line (within the first 80) that is not
chrome, matches the comma-credential shape and whose credential segment
contains a vocabulary token with word boundaries.  Fuel is the header
limit. -/
def strat2go (ls : List String) (i : Nat) : Nat → Option (String × String × Option String)
  | 0 => none
  | fuel + 1 =>
    let ln := jsTrim (ls.getD i "")
    if ln = "" then strat2go ls (i + 1) fuel
    else if containsCI ln "back to search" || containsCI ln "new search" ||
        containsCI ln "search]" then strat2go ls (i + 1) fuel
    else if containsCI ln "johns hopkins medicine" then strat2go ls (i + 1) fuel
    else
      match bigNameMatch ln with
      | none => strat2go ls (i + 1) fuel
      | some (m1, m3) =>
        let candidateCreds := jsTrim m3
        if credTokens.any (fun t => hasBoundedTok t.data candidateCreds.data) then
          some (jsTrim m1, candidateCreds, specScan2 ls (jsTrim m1) (i + 1) 7)
        else strat2go ls (i + 1) fuel

def strat2 (ls : List String) : Option (String × String × Option String) :=
  strat2go ls 0 (min ls.length 80)

/-- Degree alternatives of the strategy-3 regex, in alternation order. -/
def DEG3 : List String :=
  ["MD", "DO", "PhD", "MBBS", "BMBCh", "BM BCh", "FACC", "FSCAI", "MBA",
   "MPH", "MS", "CRNP", "NP", "CNP", "FNP", "DNP", "PA-C", "AuD"]

/-- Match `[A-Z][a-zA-Z.'-]+` at the head: the maximal class run (the class
contains neither whitespace nor a comma, so no shorter run can ever lead to
a successful continuation). -/
def matchWordAt : List Char → Option (List Char × List Char)
  | [] => none
  | c :: cs =>
    if c.isUpper then
      let run := cs.takeWhile isNameClass
      if run.isEmpty then none else some (c :: run, cs.drop run.length)
    else none

/-- Match `\s+[A-Z][a-zA-Z.'-]+` at the head, returning the consumed chunk
and the rest. -/
def wsWordAt (cs : List Char) : Option (List Char × List Char) :=
  let w := cs.takeWhile isWsC
  if w.isEmpty then none
  else
    match matchWordAt (cs.drop w.length) with
    | some (word, rest) => some (w ++ word, rest)
    | none => none

/-- States after consuming 1..n further words (`(?:\s+word){1,3}`), in
increasing order; each state carries the cumulative consumed chunk. -/
def collectWords (cs : List Char) : Nat → List (List Char × List Char)
  | 0 => []
  | n + 1 =>
    match wsWordAt cs with
    | none => []
    | some (chunk, rest) =>
      (chunk, rest) :: (collectWords rest n).map (fun pr => (chunk ++ pr.1, pr.2))

/-- After the name words: `,\s*(DEG1|DEG2|…)`; `\s*` is greedy and no
alternative begins with whitespace, so no backtracking into `\s*` can
help. -/
def tryCommaDeg (rest : List Char) : Option String :=
  match rest with
  | ',' :: r2 =>
    (DEG3.findSome? (fun d =>
      if startsL d.data (r2.dropWhile isWsC) then some d else none))
  | _ => none

/-- Try the states in greedy order (most words first). -/
def tryStates (w1 : List Char) : List (List Char × List Char) → Option (String × String)
  | [] => none
  | (chunk, rest) :: more =>
    match tryCommaDeg rest with
    | some d => some (String.mk (w1 ++ chunk), d)
    | none => tryStates w1 more

/-- The strategy-3 regex
`/([A-Z][a-zA-Z.'-]+(?:\s+[A-Z][a-zA-Z.'-]+){1,3}),\s*(MD|DO|…)/`
matched at the head of the list. -/
def strat3MatchAt (cs : List Char) : Option (String × String) :=
  match matchWordAt cs with
  | none => none
  | some (w1, rest) => tryStates w1 (collectWords rest 3).reverse

/-- Leftmost search of the strategy-3 regex over the whole joined text. -/
def strat3Scan : List Char → Option (String × String)
  | [] => none
  | c :: cs =>
    match strat3MatchAt (c :: cs) with
    | some r => some r
    | none => strat3Scan cs

def strat3 (whole : String) : Option (String × String) :=
  strat3Scan whole.data

/-- `findNameAndSpecialty(rawLines)`: the four ordered strategies followed by
the specialty bullet repair, mirroring the source's control flow.  Strategy
2 runs whenever the name or the specialty is still missing and overwrites
both name and credentials when it fires; strategies 3 and 4 run only when
the name is still missing. -/
def findNameAndSpecialty (rawLines : List String) : NameSpec :=
  let r1 := strat1 rawLines
  let r2 :=
    if r1.name = "" ∨ r1.specialty = "" then
      match strat2 rawLines with
      | some (n, c, sp) => ⟨n, c, sp.getD r1.specialty⟩
      | none => r1
    else r1
  let r3 :=
    if r2.name = "" then
      match strat3 (joinWith " " rawLines) with
      | some (n, c) => ⟨jsTrim n, jsTrim c, r2.specialty⟩
      | none => r2
    else r2
  let r4 :=
    if r3.name = "" then
      match rawLines.find? isLikelyName with
      | some l => ⟨jsTrim l, r3.creds, r3.specialty⟩
      | none => r3
    else r3
  ⟨r4.name, r4.creds, fixSpecialtyFormatting r4.specialty⟩

/-!  Location parsing. -/

structure LocationRecord where
  name : String
  address : String
  phone : String
  fax : String
deriving DecidableEq, Repr

/-- `/^Locations$/i.test((rawLines[i] || "").trim())`: a standalone
`Locations` heading line (exact case-insensitive match after trimming). -/
def isLocHeading (l : String) : Bool := lowerStr (jsTrim l) == "locations"

/-- The lines after the LAST standalone `Locations` heading, or `none` when
there is no such heading (the source keeps overwriting `idxLocations`). -/
def afterLastLoc : List String → Option (List String)
  | [] => none
  | l :: rest =>
    match afterLastLoc rest with
    | some r => some r
    | none => if isLocHeading l then some rest else none

/-- A junk line skipped inside the raw location block. -/
def isLocJunk (s : String) : Bool :=
  lowerStr s == "show more" || lowerStr s == "show less" ||
  containsCI s "maplibre" || containsCI s "openstreetmap" ||
  lowerStr s == "get directions" ||
  startsWithCI s "loading booking information complete" ||
  startsWithCI s "schedule appointment" ||
  startsWithCI s "schedule an appointment"

/-- A line that terminates the location block
(`/^(experience|expertise|education|insurance|reviews?|ratings|board certifications?)$/i`
or `/^ratings & reviews/i`). -/
def isLocStop (s : String) : Bool :=
  (["experience", "expertise", "education", "insurance", "reviews", "review",
    "ratings", "board certifications", "board certification"].contains
    (lowerStr s)) ||
  startsWithCI s "ratings & reviews"

/-- The block-collection loop of `parseLocations`: trim, skip empties and
junk, stop at the next major section. -/
def locFilter : List String → List String
  | [] => []
  | l :: rest =>
    let s := jsTrim l
    if s = "" then locFilter rest
    else if isLocJunk s then locFilter rest
    else if isLocStop s then []
    else s :: locFilter rest

/-- `name.replace(/^\d+\s+/, "")`: drop a leading digit run and the
following whitespace run, when both are present. -/
def stripNum (s : String) : String :=
  let l := s.data
  let d := l.takeWhile Char.isDigit
  if d.isEmpty then s
  else
    let r := l.drop d.length
    let w := r.takeWhile isWsC
    if w.isEmpty then s else String.mk (r.drop w.length)

/-- `/^phone\b/i.test(s)`. -/
def isPhoneStart (s : String) : Bool :=
  let l := (lowerStr s).data
  startsL "phone".data l &&
    (match l.drop 5 with | [] => true | c :: _ => !isWordChar c)

/-- `/^fax\b/i.test(s)`. -/
def isFaxStart (s : String) : Bool :=
  let l := (lowerStr s).data
  startsL "fax".data l &&
    (match l.drop 3 with | [] => true | c :: _ => !isWordChar c)

def isPF (s : String) : Bool := isPhoneStart s || isFaxStart s

/-- The capture class `[0-9().-\s]`. -/
def isPhClass (c : Char) : Bool :=
  c.isDigit || c == '(' || c == ')' || c == '.' || c == '-' || isWsC c

/-- The capture of `label:\s*([0-9().-\s]+)` right after the label: greedy
`\s*` then a maximal class run; when the run after the whitespace is empty,
`\s*` gives back one whitespace character (itself in the class) if it can. -/
def capAt (after : List Char) : Option (List Char) :=
  let w := after.takeWhile isWsC
  let r := (after.dropWhile isWsC).takeWhile isPhClass
  if !r.isEmpty then some r
  else
    match w.getLast? with
    | some cw => some [cw]
    | none => none

/-- Leftmost search of `pat` (a lowercase label such as `phone:`) in the
lowered line, retrying later occurrences when the capture fails.  The class
contains no letters, so working on the lowered copy captures the same
characters. -/
def labelCapture (pat : List Char) : List Char → Option (List Char)
  | [] => none
  | c :: cs =>
    if startsL pat (c :: cs) then
      match capAt ((c :: cs).drop pat.length) with
      | some r => some r
      | none => labelCapture pat cs
    else labelCapture pat cs

/-- `line.match(/phone:\s*([0-9().-\s]+)/i)` with `m[1].trim()` applied. -/
def phoneVal (line : String) : Option String :=
  (labelCapture "phone:".data (lowerStr line).data).map
    (fun r => jsTrim (String.mk r))

/-- `line.match(/fax:\s*([0-9().-\s]+)/i)` with `m[1].trim()` applied. -/
def faxVal (line : String) : Option String :=
  (labelCapture "fax:".data (lowerStr line).data).map
    (fun r => jsTrim (String.mk r))

/-- The record-building loop of `parseLocations` (fuel bounds the number of
iterations; each iteration consumes at least one line). -/
def locLoop : Nat → List String → List LocationRecord
  | 0, _ => []
  | _ + 1, [] => []
  | fuel + 1, l :: rest =>
    let nm := stripNum l
    let hasAddr := match rest with
      | r1 :: _ => !isPhoneStart r1 && !isFaxStart r1
      | [] => false
    let address := if hasAddr then rest.getD 0 "" else ""
    let rest1 := if hasAddr then rest.drop 1 else rest
    let pfs := rest1.takeWhile isPF
    let rest2 := rest1.dropWhile isPF
    let pf := pfs.foldl
      (fun acc ln => ((phoneVal ln).getD acc.1, (faxVal ln).getD acc.2)) ("", "")
    if nm = "" ∧ address = "" ∧ pf.1 = "" ∧ pf.2 = "" then locLoop fuel rest2
    else
      { name := normalizeSpaces nm, address := normalizeSpaces address,
        phone := pf.1, fax := pf.2 } :: locLoop fuel rest2

/-- Build location records from a filtered block. -/
def locBuild (blk : List String) : List LocationRecord := locLoop blk.length blk

/-- `parseLocations(rawLines)` from the source. -/
def parseLocations (rawLines : List String) : List LocationRecord :=
  match afterLastLoc rawLines with
  | none => []
  | some rest => locBuild (locFilter rest)

/-!  The top-level `parseDoctorText`. -/

structure PhysicianRecord where
  name : String
  credentials : String
  specialty : String
  affiliations : String
  languages : String
  gender : String
  titles : List String
  academicTitle : String
  background : String
  education : List String
  certifications : List String
  memberships : List String
  locations : List LocationRecord
deriving DecidableEq, Repr

/-- Index of the first occurrence of `pat` in the list. -/
def findSubIdxAux (pat : List Char) (k : Nat) : List Char → Option Nat
  | [] => none
  | c :: cs => if startsL pat (c :: cs) then some k else findSubIdxAux pat (k + 1) cs

/-- `l.split(":")[1] || ""`. -/
def splitColonSecond (l : String) : String :=
  ((splitP (fun c => c == ':') [] l.data).map String.mk).getD 1 ""

/-- The first occurrence of `pat` in `l.data`, dropped.  Case-insensitive:
the position is found on the lowered copy, the remainder keeps the original
characters (as a JS capture group does). -/
def dropCIPat (pat : List Char) (l : String) : Option (List Char) :=
  (findSubIdxAux pat 0 (lowerStr l).data).map
    (fun k => l.data.drop (k + pat.length))

/-- The affiliations extraction loop: first line matching
`/Johns Hopkins Affiliations:?(.+)?/i`; `m[1]` is the text after the
(optionally colon-terminated) label, and an empty normalized capture falls
back to the next line. -/
def affiliationsOf (ls : List String) : String :=
  match ls.findIdx? (fun l => containsCI l "johns hopkins affiliations") with
  | none => ""
  | some i =>
    let l := ls.getD i ""
    match dropCIPat "johns hopkins affiliations".data l with
    | none => ""
    | some rest =>
      let rest2 := match rest with | ':' :: r => r | _ => rest
      let a1 := if rest2.isEmpty then "" else normalizeSpaces (String.mk rest2)
      if a1 = "" ∧ i + 1 < ls.length then normalizeSpaces (ls.getD (i + 1) "")
      else a1

/-- First occurrence of `pat` replaced by the empty string
(JS `replace` with a string pattern). -/
def replaceFirstL (pat : List Char) : List Char → List Char
  | [] => []
  | c :: cs =>
    if startsL pat (c :: cs) then (c :: cs).drop pat.length
    else c :: replaceFirstL pat cs

/-- `replace(/^,\s*/, "")`. -/
def stripLeadCommaWs (l : List Char) : List Char :=
  match l with
  | ',' :: r => r.dropWhile isWsC
  | _ => l

/-- `parseDoctorText(text)` from the source. -/
def parseDoctorText (text : String) : PhysicianRecord :=
  let rawLines := lines text
  let fns := findNameAndSpecialty rawLines
  let affiliations := affiliationsOf rawLines
  let languages :=
    match findHeading rawLines ["Languages", "Language"] with
    | some idxLang =>
      let block := extractHeadingBlock rawLines idxLang []
      let langLine := jsOr (jsTrim (joinBlock block))
        (splitColonSecond (rawLines.getD idxLang ""))
      parseLanguages langLine
    | none => ""
  let gender :=
    match findHeading rawLines ["Gender"] with
    | some idx =>
      let block := extractHeadingBlock rawLines idx []
      let b0 := block.getD 0 ""
      if b0 ≠ "" then normalizeSpaces b0
      else jsTrim (splitColonSecond (rawLines.getD idx ""))
    | none => ""
  let titles :=
    match findHeading rawLines ["Professional Titles"] with
    | some idx => parseList (extractHeadingBlock rawLines idx [])
    | none => []
  let academicTitle :=
    match findHeading rawLines ["Primary Academic Title"] with
    | some idx =>
      let block := extractHeadingBlock rawLines idx []
      let b0 := block.getD 0 ""
      if b0 ≠ "" then normalizeSpaces b0
      else jsTrim (splitColonSecond (rawLines.getD idx ""))
    | none =>
      match rawLines.find? (fun l =>
          containsCI l "professor" && decide (l.length < 160) &&
          !containsCI l "johns hopkins medicine") with
      | some fb => normalizeSpaces fb
      | none => ""
  let background :=
    match findHeading rawLines ["Background"] with
    | some idx => joinBlock (extractHeadingBlock rawLines idx [])
    | none =>
      match findHeading rawLines ["About"] with
      | some idx => joinBlock (extractHeadingBlock rawLines idx [])
      | none => ""
  let education :=
    match findHeading rawLines ["Education"] with
    | some idx => parseEducation (extractHeadingBlock rawLines idx [])
    | none => []
  let certifications :=
    match findHeading rawLines ["Board Certifications", "Board Certification"] with
    | some idx => parseEducation (extractHeadingBlock rawLines idx [])
    | none => []
  let memberships :=
    match findHeading rawLines ["Memberships", "Membership"] with
    | some idx => parseList (extractHeadingBlock rawLines idx [])
    | none => []
  let locations := parseLocations rawLines
  let credentials :=
    if fns.creds = "" ∧ fns.name ≠ "" then
      match rawLines.find? (fun l =>
          containsSubL fns.name.data l.data && l.data.contains ',') with
      | some near =>
        jsTrim (String.mk (stripLeadCommaWs (replaceFirstL fns.name.data near.data)))
      | none => fns.creds
    else fns.creds
  { name := jsOr fns.name "Physician Name",
    credentials := jsOr credentials "",
    specialty := jsOr fns.specialty "",
    affiliations := jsOr affiliations "",
    languages := jsOr languages "",
    gender := jsOr gender "",
    titles := titles,
    academicTitle := academicTitle,
    background := background,
    education := education,
    certifications := certifications,
    memberships := memberships,
    locations := locations }

/-- Boundary test used by `insBul` and by the idempotence argument: some
adjacent pair of the list matches `([a-z\)])([A-Z])`. -/
def hasBound : List Char → Bool
  | [] => false
  | [_] => false
  | a :: b :: r => (isBoundLeft a && b.isUpper) || hasBound (b :: r)

/-!  General list lemmas used throughout the development. -/

theorem drop_takeWhile_length (p : Char → Bool) (l : List Char) :
    l.drop (l.takeWhile p).length = l.dropWhile p := by
  induction l with
  | nil => rfl
  | cons c cs ih => by_cases h : p c <;> simp [List.takeWhile, List.dropWhile, h, ih]

theorem head?_dropWhile_not (p : Char → Bool) (l : List Char) (c : Char)
    (h : (l.dropWhile p).head? = some c) : p c = false := by
  induction l with
  | nil => simp [List.dropWhile] at h
  | cons a as ih =>
    by_cases hp : p a
    · simp [List.dropWhile, hp] at h
      exact ih h
    · simp [List.dropWhile, hp] at h
      subst h
      simpa using hp

theorem getLast?_dropWhile (p : Char → Bool) (l : List Char)
    (h : l.dropWhile p ≠ []) : (l.dropWhile p).getLast? = l.getLast? := by
  induction l with
  | nil => simp [List.dropWhile] at h
  | cons a as ih =>
    by_cases hp : p a
    · have hne : as.dropWhile p ≠ [] := by simpa [List.dropWhile, hp] using h
      have has : as ≠ [] := by
        intro hnil
        rw [hnil] at hne
        simp [List.dropWhile] at hne
      rw [List.dropWhile_cons_of_pos hp, ih hne]
      cases as with
      | nil => exact absurd rfl has
      | cons b bs => simp [List.getLast?_cons_cons]
    · rw [List.dropWhile_cons_of_neg hp]

theorem getLast?_drop (l : List Char) (n : Nat) (h : l.drop n ≠ []) :
    (l.drop n).getLast? = l.getLast? := by
  induction l generalizing n with
  | nil => simp at h
  | cons a as ih =>
    cases n with
    | zero => rfl
    | succ m =>
      have h2 : as.drop m ≠ [] := by simpa using h
      have has : as ≠ [] := by
        intro hnil
        rw [hnil] at h2
        simp at h2
      rw [List.drop_succ_cons, ih m h2]
      cases as with
      | nil => exact absurd rfl has
      | cons b bs => simp [List.getLast?_cons_cons]

theorem mem_dropWhile_of_not (p : Char → Bool) (l : List Char) (c : Char)
    (hc : c ∈ l) (hp : p c = false) : c ∈ l.dropWhile p := by
  induction l with
  | nil => simp at hc
  | cons a as ih =>
    by_cases ha : p a
    · rw [List.dropWhile_cons_of_pos ha]
      rcases List.mem_cons.mp hc with h | h
      · subst h
        rw [hp] at ha
        exact absurd ha (by simp)
      · exact ih h
    · rwa [List.dropWhile_cons_of_neg ha]

theorem dropWhile_eq_self_of_head (p : Char → Bool) (l : List Char)
    (h : ∀ c, l.head? = some c → p c = false) : l.dropWhile p = l := by
  cases l with
  | nil => rfl
  | cons a as =>
    have := h a rfl
    simp [List.dropWhile, this]

theorem getLast?_cons_of_ne_nil {α : Type} (a : α) (t : List α) (h : t ≠ []) :
    (a :: t).getLast? = t.getLast? := by
  cases t with
  | nil => exact absurd rfl h
  | cons b bs => simp [List.getLast?_cons_cons]

theorem getLast?_append_right {α : Type} (l₁ l₂ : List α) (h : l₂ ≠ []) :
    (l₁ ++ l₂).getLast? = l₂.getLast? := by
  induction l₁ with
  | nil => rfl
  | cons a t ih =>
    rw [List.cons_append, getLast?_cons_of_ne_nil a (t ++ l₂) (by simp [h]), ih]

/-!  Lemmas about `trimL`. -/

theorem trimL_head_not_ws (l : List Char) (c : Char)
    (h : (trimL l).head? = some c) : isWsC c = false := by
  unfold trimL at h
  rw [List.head?_reverse] at h
  by_cases hnil : (l.dropWhile isWsC).reverse.dropWhile isWsC = []
  · rw [hnil] at h
    simp at h
  · rw [getLast?_dropWhile _ _ hnil, List.getLast?_reverse] at h
    exact head?_dropWhile_not _ _ _ h

theorem trimL_last_not_ws (l : List Char) (c : Char)
    (h : (trimL l).getLast? = some c) : isWsC c = false := by
  unfold trimL at h
  rw [List.getLast?_reverse] at h
  exact head?_dropWhile_not _ _ _ h

theorem trimL_eq_self_of (l : List Char)
    (h1 : ∀ c, l.head? = some c → isWsC c = false)
    (h2 : ∀ c, l.getLast? = some c → isWsC c = false) : trimL l = l := by
  unfold trimL
  rw [dropWhile_eq_self_of_head _ _ h1]
  rw [dropWhile_eq_self_of_head _ _ (fun c hc => h2 c (by rwa [List.head?_reverse] at hc))]
  exact List.reverse_reverse l

theorem trimL_idem (l : List Char) : trimL (trimL l) = trimL l :=
  trimL_eq_self_of _ (trimL_head_not_ws l) (trimL_last_not_ws l)

theorem trimL_ne_nil_of_mem (l : List Char) (c : Char) (hm : c ∈ l)
    (hw : isWsC c = false) : trimL l ≠ [] := by
  unfold trimL
  intro h
  have h2 := congrArg List.reverse h
  rw [List.reverse_reverse] at h2
  have hc1 : c ∈ l.dropWhile isWsC := mem_dropWhile_of_not _ _ _ hm hw
  have hc2 : c ∈ (l.dropWhile isWsC).reverse := List.mem_reverse.mpr hc1
  have hc3 : c ∈ (l.dropWhile isWsC).reverse.dropWhile isWsC :=
    mem_dropWhile_of_not _ _ _ hc2 hw
  rw [h2] at hc3
  simp at hc3

/-!  Lemmas about `collapseAux` (whitespace-run collapsing). -/

theorem mem_collapseAux_of (l : List Char) (c : Char) (hm : c ∈ l)
    (hw : isWsC c = false) : ∀ b, c ∈ collapseAux b l := by
  induction l with
  | nil => simp at hm
  | cons a as ih =>
    intro b
    rcases List.mem_cons.mp hm with h | h
    · subst h
      simp [collapseAux, hw]
    · by_cases ha : isWsC a
      · by_cases hb : b
        · simpa [collapseAux, ha, hb] using ih h true
        · simp only [collapseAux, ha, if_pos rfl, hb, if_neg]
          simp only [Bool.false_eq_true, if_false]
          exact List.mem_cons_of_mem _ (ih h true)
      · simp only [collapseAux, ha, if_neg, Bool.false_eq_true, if_false]
        exact List.mem_cons_of_mem _ (ih h false)

theorem mem_of_mem_collapseAux (l : List Char) (c : Char) :
    ∀ b, c ∈ collapseAux b l → c = ' ' ∨ c ∈ l := by
  induction l with
  | nil => intro b h; simp [collapseAux] at h
  | cons a as ih =>
    intro b h
    by_cases ha : isWsC a
    · by_cases hb : b
      · subst hb
        simp only [collapseAux, ha, if_pos rfl, if_pos rfl] at h
        rcases ih true h with h2 | h2
        · exact Or.inl h2
        · exact Or.inr (List.mem_cons_of_mem _ h2)
      · simp only [collapseAux, ha, if_pos rfl, hb] at h
        simp only [Bool.false_eq_true, if_false] at h
        rcases List.mem_cons.mp h with h2 | h2
        · exact Or.inl h2
        · rcases ih true h2 with h3 | h3
          · exact Or.inl h3
          · exact Or.inr (List.mem_cons_of_mem _ h3)
    · simp only [collapseAux, ha, Bool.false_eq_true, if_false] at h
      rcases List.mem_cons.mp h with h2 | h2
      · exact Or.inr (h2 ▸ List.mem_cons_self a as)
      · rcases ih false h2 with h3 | h3
        · exact Or.inl h3
        · exact Or.inr (List.mem_cons_of_mem _ h3)

theorem collapseAux_false_head? (l : List Char) :
    (collapseAux false l).head? = l.head?.map (fun c => if isWsC c then ' ' else c) := by
  cases l with
  | nil => rfl
  | cons a as => by_cases ha : isWsC a <;> simp [collapseAux, ha]

/-- One-step unfolding of `collapseAux` on a cons cell. -/
theorem collapseAux_cons (b : Bool) (a : Char) (as : List Char) :
    collapseAux b (a :: as) =
      if isWsC a then (if b then collapseAux true as else ' ' :: collapseAux true as)
      else a :: collapseAux false as := rfl

/-- One-step unfolding of `hasBound` on two cons cells. -/
theorem hasBound_cons₂ (a b : Char) (r : List Char) :
    hasBound (a :: b :: r) = ((isBoundLeft a && b.isUpper) || hasBound (b :: r)) := rfl

theorem hasBound_cons_of_tail (a : Char) (l : List Char)
    (h : hasBound l = true) : hasBound (a :: l) = true := by
  cases l with
  | nil => simp [hasBound] at h
  | cons x xs => simp [hasBound_cons₂, h]

theorem collapseAux_ne_nil_of_getLast? (l : List Char) (c : Char) (b : Bool)
    (h : (collapseAux b l).getLast? = some c) : collapseAux b l ≠ [] := by
  intro hnil
  rw [hnil] at h
  simp at h

theorem collapseAux_getLast? (l : List Char) (c : Char)
    (hl : l.getLast? = some c) (hw : isWsC c = false) :
    ∀ b, (collapseAux b l).getLast? = some c := by
  induction l with
  | nil => simp at hl
  | cons a as ih =>
    intro b
    rw [collapseAux_cons]
    cases has : as with
    | nil =>
      subst has
      simp at hl
      subst hl
      simp [hw, collapseAux]
    | cons x xs =>
      subst has
      have hl2 : (x :: xs).getLast? = some c := by
        rw [getLast?_cons_of_ne_nil a _ (by simp)] at hl
        exact hl
      have ihb := ih hl2
      by_cases ha : isWsC a
      · rw [if_pos ha]
        cases b with
        | true =>
          simp only [if_pos]
          exact ihb true
        | false =>
          simp only [Bool.false_eq_true, if_false]
          rw [getLast?_cons_of_ne_nil _ _ (collapseAux_ne_nil_of_getLast? _ _ _ (ihb true))]
          exact ihb true
      · rw [if_neg ha]
        rw [getLast?_cons_of_ne_nil _ _ (collapseAux_ne_nil_of_getLast? _ _ _ (ihb false))]
        exact ihb false

theorem collapseAux_idem (l : List Char) :
    ∀ b, collapseAux b (collapseAux b l) = collapseAux b l := by
  induction l with
  | nil => intro b; rfl
  | cons a as ih =>
    intro b
    by_cases ha : isWsC a
    · cases b with
      | true =>
        rw [collapseAux_cons, if_pos ha, if_pos (by rfl)]
        exact ih true
      | false =>
        rw [collapseAux_cons, if_pos ha]
        simp only [Bool.false_eq_true, if_false]
        rw [collapseAux_cons, if_pos (by decide)]
        simp only [Bool.false_eq_true, if_false]
        rw [ih true]
    · rw [collapseAux_cons, if_neg ha, collapseAux_cons, if_neg ha, ih false]

theorem hasBound_of_hasBound_collapseAux (l : List Char) :
    ∀ b, hasBound (collapseAux b l) = true → hasBound l = true := by
  induction l with
  | nil => intro b h; simp [collapseAux, hasBound] at h
  | cons a as ih =>
    intro b h
    rw [collapseAux_cons] at h
    by_cases ha : isWsC a
    · rw [if_pos ha] at h
      cases b with
      | true =>
        rw [if_pos (by rfl)] at h
        exact hasBound_cons_of_tail a _ (ih true h)
      | false =>
        simp only [Bool.false_eq_true, if_false] at h
        cases hR : collapseAux true as with
        | nil => rw [hR] at h; simp [hasBound] at h
        | cons y ys =>
          rw [hR] at h
          rw [hasBound_cons₂] at h
          have hsp : isBoundLeft ' ' = false := by decide
          rw [hsp] at h
          simp only [Bool.false_and, Bool.false_or] at h
          rw [← hR] at h
          exact hasBound_cons_of_tail a _ (ih true h)
    · rw [if_neg ha] at h
      cases hR : collapseAux false as with
      | nil => rw [hR] at h; simp [hasBound] at h
      | cons y ys =>
        rw [hR] at h
        rw [hasBound_cons₂] at h
        rcases Bool.or_eq_true_iff.mp h with h2 | h2
        · cases as with
          | nil => simp [collapseAux] at hR
          | cons x xs =>
            have hhd : (collapseAux false (x :: xs)).head? =
                some (if isWsC x then ' ' else x) := by
              rw [collapseAux_false_head?]
              simp
            rw [hR] at hhd
            simp at hhd
            by_cases hx : isWsC x
            · rw [if_pos hx] at hhd
              subst hhd
              have : Char.isUpper ' ' = false := by decide
              rw [this] at h2
              simp at h2
            · rw [if_neg hx] at hhd
              subst hhd
              rw [hasBound_cons₂]
              rw [h2]
              simp
        · rw [← hR] at h2
          exact hasBound_cons_of_tail a _ (ih false h2)

/-!  Lemmas about `insBul` (bullet insertion) and `hasBound`. -/

theorem insBul_cons₂ (a b : Char) (rest : List Char) :
    insBul (a :: b :: rest) =
      if isBoundLeft a && b.isUpper then a :: ' ' :: '•' :: ' ' :: insBul (b :: rest)
      else a :: insBul (b :: rest) := rfl

theorem insBul_head? (l : List Char) : (insBul l).head? = l.head? := by
  match l with
  | [] => rfl
  | [c] => rfl
  | a :: b :: rest =>
    rw [insBul_cons₂]
    by_cases h : isBoundLeft a && b.isUpper
    · rw [if_pos h]; rfl
    · rw [if_neg h]; rfl

theorem insBul_ne_nil (l : List Char) (h : l ≠ []) : insBul l ≠ [] := by
  intro hnil
  have h1 := insBul_head? l
  rw [hnil] at h1
  cases l with
  | nil => exact h rfl
  | cons a as => simp at h1

theorem insBul_eq_self_of_not (l : List Char) (h : hasBound l = false) :
    insBul l = l := by
  induction l with
  | nil => rfl
  | cons a as ih =>
    cases as with
    | nil => rfl
    | cons b r =>
      rw [hasBound_cons₂] at h
      simp only [Bool.or_eq_false_iff] at h
      rw [insBul_cons₂, if_neg (by rw [h.1]; simp), ih h.2]

theorem bullet_mem_insBul (l : List Char) (h : hasBound l = true) :
    '•' ∈ insBul l := by
  induction l with
  | nil => simp [hasBound] at h
  | cons a as ih =>
    cases as with
    | nil => simp [hasBound] at h
    | cons b r =>
      rw [insBul_cons₂]
      by_cases hm : isBoundLeft a && b.isUpper
      · rw [if_pos hm]
        simp
      · rw [if_neg hm]
        rw [hasBound_cons₂] at h
        rcases Bool.or_eq_true_iff.mp h with h2 | h2
        · exact absurd h2 hm
        · exact List.mem_cons_of_mem _ (ih h2)

theorem insBul_getLast? (l : List Char) : (insBul l).getLast? = l.getLast? := by
  induction l with
  | nil => rfl
  | cons a as ih =>
    cases as with
    | nil => rfl
    | cons b r =>
      have hne : insBul (b :: r) ≠ [] := insBul_ne_nil _ (by simp)
      rw [insBul_cons₂]
      by_cases hm : isBoundLeft a && b.isUpper
      · rw [if_pos hm]
        rw [getLast?_cons_of_ne_nil a (' ' :: '•' :: ' ' :: insBul (b :: r)) (by simp)]
        rw [getLast?_cons_of_ne_nil ' ' ('•' :: ' ' :: insBul (b :: r)) (by simp)]
        rw [getLast?_cons_of_ne_nil '•' (' ' :: insBul (b :: r)) (by simp)]
        rw [getLast?_cons_of_ne_nil ' ' (insBul (b :: r)) hne]
        rw [ih]
        rw [getLast?_cons_of_ne_nil a (b :: r) (by simp)]
      · rw [if_neg hm]
        rw [getLast?_cons_of_ne_nil a (insBul (b :: r)) hne, ih,
          getLast?_cons_of_ne_nil a (b :: r) (by simp)]

/-!  Lemmas about `hasBulletL` and the idempotence of
`fixSpecialtyFormatting`. -/

theorem hasBulletL_iff (l : List Char) :
    hasBulletL l = true ↔ '•' ∈ l ∨ '·' ∈ l := by
  unfold hasBulletL
  rw [Bool.or_eq_true_iff, List.elem_iff, List.elem_iff]

theorem getLast?_mem (l : List Char) (c : Char) (h : l.getLast? = some c) :
    c ∈ l := by
  have hx : c ∈ l.getLast? := by rw [h]; rfl
  rcases List.mem_getLast?_eq_getLast hx with ⟨hne, heq⟩
  exact heq ▸ List.getLast_mem hne

theorem mk_eq_empty_iff (l : List Char) : String.mk l = "" ↔ l = [] := by
  rw [String.ext_iff]

theorem trimmed_head_not_ws (l : List Char) (htrim : trimL l = l) (c : Char)
    (hc : l.head? = some c) : isWsC c = false :=
  trimL_head_not_ws l c (by rw [htrim]; exact hc)

theorem trimmed_last_not_ws (l : List Char) (htrim : trimL l = l) (c : Char)
    (hc : l.getLast? = some c) : isWsC c = false :=
  trimL_last_not_ws l c (by rw [htrim]; exact hc)

/-- The repaired string `collapseWs (insBul T)` of a trimmed `T` is itself
trimmed. -/
theorem repaired_trimmed (T : List Char) (htrim : trimL T = T) :
    trimL (collapseWs (insBul T)) = collapseWs (insBul T) := by
  apply trimL_eq_self_of
  · intro c hc
    unfold collapseWs at hc
    rw [collapseAux_false_head?, insBul_head?] at hc
    cases hh : T.head? with
    | none => rw [hh] at hc; simp at hc
    | some a =>
      rw [hh] at hc
      simp at hc
      have ha : isWsC a = false := trimmed_head_not_ws T htrim a hh
      rw [ha] at hc
      simp at hc
      rw [← hc]
      exact ha
  · intro c hc
    cases hT : T.getLast? with
    | none =>
      have hTnil : T = [] := List.getLast?_eq_none_iff.mp hT
      rw [hTnil] at hc
      simp [insBul, collapseWs, collapseAux] at hc
    | some a =>
      have ha : isWsC a = false := trimmed_last_not_ws T htrim a hT
      have h1 : (insBul T).getLast? = some a := by rw [insBul_getLast?]; exact hT
      have h2 := collapseAux_getLast? (insBul T) a h1 ha false
      unfold collapseWs at hc
      rw [h2] at hc
      injection hc with hc
      rw [← hc]
      exact ha

/-- `fixSpecialtyFormatting` fixes any trimmed bulleted string. -/
theorem fix_of_trimmed_bullet (l : List Char) (htrim : trimL l = l)
    (hbul : hasBulletL l = true) :
    fixSpecialtyFormatting (String.mk l) = String.mk l := by
  have hne : l ≠ [] := by
    intro h
    rw [h] at hbul
    simp [hasBulletL] at hbul
  unfold fixSpecialtyFormatting
  rw [if_neg (fun h => hne ((mk_eq_empty_iff l).mp h))]
  show (if hasBulletL (trimL l) then String.mk (trimL l)
    else String.mk (collapseWs (insBul (trimL l)))) = String.mk l
  rw [htrim, if_pos hbul]

/-- Claim C9: `fixSpecialtyFormatting` is idempotent — a first application
either returns the trimmed input unchanged (bullet guard) or produces a
trimmed string that is either bulleted or has no boundary left, and in every
case a second application is the identity. -/
theorem claim_C9 (s : String) :
    fixSpecialtyFormatting (fixSpecialtyFormatting s) = fixSpecialtyFormatting s := by
  by_cases hs : s = ""
  · subst hs
    rfl
  · have hfs : fixSpecialtyFormatting s =
        (if hasBulletL (trimL s.data) then String.mk (trimL s.data)
         else String.mk (collapseWs (insBul (trimL s.data)))) := by
      unfold fixSpecialtyFormatting
      rw [if_neg hs]
    by_cases hb : hasBulletL (trimL s.data) = true
    · rw [hfs, if_pos hb]
      exact fix_of_trimmed_bullet _ (trimL_idem s.data) hb
    · rw [hfs, if_neg hb]
      set T := trimL s.data with hT
      have htrimT : trimL T = T := trimL_idem s.data
      by_cases hBd : hasBound T = true
      · -- a bullet was inserted: the result is trimmed and bulleted
        have hmem : '•' ∈ collapseWs (insBul T) :=
          mem_collapseAux_of _ _ (bullet_mem_insBul T hBd) (by decide) false
        exact fix_of_trimmed_bullet _ (repaired_trimmed T htrimT)
          ((hasBulletL_iff _).mpr (Or.inl hmem))
      · -- no boundary: the result is the collapsed input, a fixpoint
        have hIns : insBul T = T :=
          insBul_eq_self_of_not T (Bool.not_eq_true _ ▸ Bool.of_not_eq_true hBd)
        rw [hIns]
        by_cases hR : collapseWs T = []
        · rw [hR]
          rfl
        · have hRtrim : trimL (collapseWs T) = collapseWs T := by
            have := repaired_trimmed T htrimT
            rwa [hIns] at this
          have hRnb : hasBulletL (collapseWs T) = false := by
            by_contra hcon
            have hcon2 : hasBulletL (collapseWs T) = true :=
              Bool.of_not_eq_false hcon
            rcases (hasBulletL_iff _).mp hcon2 with hm | hm
            · rcases mem_of_mem_collapseAux T '•' false hm with h2 | h2
              · exact absurd h2 (by decide)
              · have : hasBulletL T = true := (hasBulletL_iff T).mpr (Or.inl h2)
                rw [this] at hb
                exact hb rfl
            · rcases mem_of_mem_collapseAux T '·' false hm with h2 | h2
              · exact absurd h2 (by decide)
              · have : hasBulletL T = true := (hasBulletL_iff T).mpr (Or.inr h2)
                rw [this] at hb
                exact hb rfl
          have hRBd : hasBound (collapseWs T) = false := by
            by_contra hcon
            have hcon2 : hasBound (collapseWs T) = true :=
              Bool.of_not_eq_false hcon
            have := hasBound_of_hasBound_collapseAux T false hcon2
            rw [this] at hBd
            exact hBd rfl
          unfold fixSpecialtyFormatting
          rw [if_neg (fun h => hR ((mk_eq_empty_iff _).mp h))]
          show (if hasBulletL (trimL (collapseWs T)) then String.mk (trimL (collapseWs T))
            else String.mk (collapseWs (insBul (trimL (collapseWs T))))) =
            String.mk (collapseWs T)
          rw [hRtrim, if_neg (by rw [hRnb]; simp), insBul_eq_self_of_not _ hRBd]
          unfold collapseWs
          rw [collapseAux_idem T false]

/-!  Claim C3: no block line starts with a stop heading. -/

theorem ehbLoop_no_stop (stops : List String) (ls : List String) :
    ∀ l ∈ ehbLoop stops ls, isStopLine stops l = false := by
  induction ls with
  | nil => intro l h; simp [ehbLoop] at h
  | cons a as ih =>
    intro l h
    by_cases ha : isStopLine stops a
    · simp [ehbLoop, ha] at h
    · simp only [ehbLoop, ha, Bool.false_eq_true, if_false] at h
      rcases List.mem_cons.mp h with h2 | h2
      · subst h2
        exact Bool.not_eq_true _ ▸ Bool.of_not_eq_true ha
      · exact ih l h2

/-- Claim C3: for every line sequence, start index and extra stop phrases,
no line of `extractHeadingBlock`'s output has a lowercased text starting
with any stop phrase of the global vocabulary or of the extra phrases. -/
theorem claim_C3 (rawLines : List String) (startIdx : Nat)
    (extra : List String) :
    ∀ l ∈ extractHeadingBlock rawLines startIdx extra,
      isStopLine (stopsFor extra) l = false :=
  fun l hl => ehbLoop_no_stop (stopsFor extra) (rawLines.drop (startIdx + 1)) l hl

/-- Witness for claim C3 at a concrete block extraction. -/
theorem claim_C3_witness :
    ("x" ∈ extractHeadingBlock ["Background", "x", "Education", "y"] 0 []) ∧
    isStopLine (stopsFor []) "x" = false :=
  ⟨by decide, claim_C3 ["Background", "x", "Education", "y"] 0 [] "x" (by decide)⟩

/-!  Claim C5: language parsing on a concatenated duplicate list. -/

/-- Claim C5: `parseLanguages "BengaliEnglishBengali"` splits at the two
lowercase-to-uppercase boundaries, title-cases, deduplicates keeping
first-seen order and joins with a comma and space. -/
theorem claim_C5 : parseLanguages "BengaliEnglishBengali" = "Bengali, English" := by
  rfl

/-!  Claim C7: the heading-injection heuristic never runs on multiline
input. -/

/-- Claim C7: whenever the cleaned text still contains a newline, `lines` is
exactly the plain split-trim-filter pipeline, with no heading injection. -/
theorem claim_C7 (text : String)
    (h : (normNewlines text).data.contains '\n' = true) :
    lines text = splitTrimFilter (normNewlines text) := by
  show splitTrimFilter
      (if (normNewlines text).data.contains '\n' then normNewlines text
       else injectHeadings (normNewlines text)) =
    splitTrimFilter (normNewlines text)
  rw [if_pos h]

/-- Witness for claim C7 on a two-line input. -/
theorem claim_C7_witness :
    (normNewlines "a\nb").data.contains '\n' = true ∧
    lines "a\nb" = splitTrimFilter (normNewlines "a\nb") :=
  ⟨by decide, claim_C7 "a\nb" (by decide)⟩

/-!  Claim C10: the assembled record always has a non-empty name. -/

/-- Claim C10: `parseDoctorText` always returns a non-empty name, and when
no detection strategy found one, the name is the placeholder
`"Physician Name"`. -/
theorem claim_C10 (text : String) :
    (parseDoctorText text).name ≠ "" ∧
    ((findNameAndSpecialty (lines text)).name = "" →
      (parseDoctorText text).name = "Physician Name") := by
  have hn : (parseDoctorText text).name =
      jsOr (findNameAndSpecialty (lines text)).name "Physician Name" := by
    simp only [parseDoctorText]
  constructor
  · rw [hn]
    unfold jsOr
    by_cases h : (findNameAndSpecialty (lines text)).name = ""
    · rw [if_pos h]
      decide
    · rw [if_neg h]
      exact h
  · intro h
    rw [hn]
    unfold jsOr
    rw [if_pos h]

/-- Witness for claim C10 at the empty input, where no strategy finds a
name. -/
theorem claim_C10_witness :
    (parseDoctorText "").name ≠ "" ∧ (parseDoctorText "").name = "Physician Name" :=
  ⟨(claim_C10 "").1, (claim_C10 "").2 (by decide)⟩

/-!  Claim C2: ordering of the name-detection fallback chain. -/

/-- Counterexample to claim C2 as stated: on this line sequence strategy 1
finds the name `"John Doe"` (after the `Print` marker), yet the function
returns `"Alice Baker"` — strategy 2 reruns because the specialty is still
empty and replaces the strategy-1 name. -/
theorem claim_C2_counterexample :
    (strat1 ["Alice Baker, MD", "Print", "John Doe"]).name = "John Doe" ∧
    (strat1 ["Alice Baker, MD", "Print", "John Doe"]).name ≠ "" ∧
    (findNameAndSpecialty ["Alice Baker, MD", "Print", "John Doe"]).name =
      "Alice Baker" := by
  decide

/-- Claim C2 (amended): when strategy 1 yields both a name and a specialty,
no later strategy runs: the result is exactly the strategy-1 record with the
bullet repair applied to its specialty. -/
theorem claim_C2_amended (ls : List String)
    (h1 : (strat1 ls).name ≠ "") (h2 : (strat1 ls).specialty ≠ "") :
    findNameAndSpecialty ls =
      ⟨(strat1 ls).name, (strat1 ls).creds,
       fixSpecialtyFormatting (strat1 ls).specialty⟩ := by
  simp [findNameAndSpecialty, h1, h2]

/-- Witness for the amended claim C2. -/
theorem claim_C2_amended_witness :
    (strat1 ["Print", "Jane A. Smith", "Cardiology"]).name ≠ "" ∧
    (strat1 ["Print", "Jane A. Smith", "Cardiology"]).specialty ≠ "" ∧
    findNameAndSpecialty ["Print", "Jane A. Smith", "Cardiology"] =
      ⟨(strat1 ["Print", "Jane A. Smith", "Cardiology"]).name,
       (strat1 ["Print", "Jane A. Smith", "Cardiology"]).creds,
       fixSpecialtyFormatting
         (strat1 ["Print", "Jane A. Smith", "Cardiology"]).specialty⟩ :=
  ⟨by decide, by decide,
    claim_C2_amended ["Print", "Jane A. Smith", "Cardiology"] (by decide) (by decide)⟩

/-!  Claim C1: the spec's name-detection example input. -/

/-- Counterexample to claim C1 as stated: on the spec's example input the
credentials stay empty (the first word `Smith` of the credential line does
not match the first word `Jane` of the name) and the credential line itself
is taken as the specialty. -/
theorem claim_C1_counterexample :
    (parseDoctorText "Print\nJane A. Smith\nSmith, MD, PhD\nCardiology\n").credentials ≠
      "MD, PhD" ∧
    (parseDoctorText "Print\nJane A. Smith\nSmith, MD, PhD\nCardiology\n").specialty ≠
      "Cardiology" := by
  decide

/-- Claim C1 (amended): on the spec's example input the parse yields
`name = "Jane A. Smith"`, empty credentials, and specialty
`"Smith, MD, Ph • D"` (the credential line captured as specialty and then
bullet-repaired at its `hD` boundary). -/
theorem claim_C1_amended :
    (parseDoctorText "Print\nJane A. Smith\nSmith, MD, PhD\nCardiology\n").name =
      "Jane A. Smith" ∧
    (parseDoctorText "Print\nJane A. Smith\nSmith, MD, PhD\nCardiology\n").credentials =
      "" ∧
    (parseDoctorText "Print\nJane A. Smith\nSmith, MD, PhD\nCardiology\n").specialty =
      "Smith, MD, Ph • D" := by
  decide

/-!  Claim C8: the Locations section anchors at the last standalone
heading. -/

theorem afterLastLoc_none (ls : List String)
    (h : ∀ l ∈ ls, isLocHeading l = false) : afterLastLoc ls = none := by
  induction ls with
  | nil => rfl
  | cons a as ih =>
    have ha := h a (List.mem_cons_self a as)
    have has := ih (fun l hl => h l (List.mem_cons_of_mem _ hl))
    simp [afterLastLoc, has, ha]

theorem afterLastLoc_append (p : List String) (v : String) (s : List String)
    (hv : isLocHeading v = true) (hs : ∀ l ∈ s, isLocHeading l = false) :
    afterLastLoc (p ++ v :: s) = some s := by
  induction p with
  | nil => simp [afterLastLoc, afterLastLoc_none s hs, hv]
  | cons x xs ih => simp [afterLastLoc, ih]

/-- Claim C8: `parseLocations` anchors at the last line whose trimmed text
equals `Locations` case-insensitively — when no such line exists the result
is empty, and when the heading occurs (possibly several times) only the
lines after the last occurrence are parsed, whatever precedes it. -/
theorem claim_C8 (ls : List String) :
    ((∀ l ∈ ls, isLocHeading l = false) → parseLocations ls = []) ∧
    (∀ p v s, ls = p ++ v :: s → isLocHeading v = true →
      (∀ l ∈ s, isLocHeading l = false) →
      parseLocations ls = locBuild (locFilter s)) := by
  constructor
  · intro h
    unfold parseLocations
    rw [afterLastLoc_none ls h]
  · intro p v s hls hv hs
    subst hls
    unfold parseLocations
    rw [afterLastLoc_append p v s hv hs]

/-- Witness for claim C8: a navigation line and an earlier prefix are
ignored, only the block after the last `Locations` line is parsed. -/
theorem claim_C8_witness :
    isLocHeading "Locations" = true ∧
    parseLocations ["Locations", "nav", "Locations", "Clinic A", "1 Main"] =
      locBuild (locFilter ["Clinic A", "1 Main"]) :=
  ⟨by decide,
    (claim_C8 ["Locations", "nav", "Locations", "Clinic A", "1 Main"]).2
      ["Locations", "nav"] "Locations" ["Clinic A", "1 Main"] rfl
      (by decide) (by decide)⟩

/-!  Claim C6: the paired-list extractor on odd-length blocks. -/

theorem parseEducation_getLast (blk : List String)
    (hodd : blk.length % 2 = 1)
    (hne : normalizeSpaces (blk.getLastD "") ≠ "") :
    (parseEducation blk).getLast? = some (normalizeSpaces (blk.getLastD "")) := by
  induction blk using parseEducation.induct with
  | case1 => simp at hodd
  | case2 a =>
    have hD : ([a] : List String).getLastD "" = a := rfl
    rw [hD] at hne ⊢
    have hl2 : normalizeSpaces "" = "" := rfl
    simp [parseEducation, pairItem, hne, hl2, jsOr]
  | case3 a b rest ih =>
    have hlen : (a :: b :: rest).length = rest.length + 2 := by
      simp [List.length_cons]
    have hrodd : rest.length % 2 = 1 := by
      rw [hlen] at hodd
      omega
    have hrne : rest ≠ [] := by
      intro h
      rw [h] at hrodd
      simp at hrodd
    have hD : (a :: b :: rest).getLastD "" = rest.getLastD "" := by
      rw [List.getLastD_eq_getLast?, List.getLastD_eq_getLast?,
        getLast?_cons_of_ne_nil a (b :: rest) (by simp),
        getLast?_cons_of_ne_nil b rest hrne]
    rw [hD] at hne ⊢
    have ihh := ih hrodd hne
    have hpe : parseEducation rest ≠ [] := by
      intro h
      rw [h] at ihh
      simp at ihh
    show (pairItem a b ++ parseEducation rest).getLast? = some (normalizeSpaces (rest.getLastD ""))
    rw [getLast?_append_right (pairItem a b) (parseEducation rest) hpe]
    exact ihh

theorem parseEducation_mem_pair (blk : List String) :
    ∀ i, 2 * i + 1 < blk.length →
      normalizeSpaces (blk.getD (2 * i) "") ≠ "" →
      normalizeSpaces (blk.getD (2 * i + 1) "") ≠ "" →
      (normalizeSpaces (blk.getD (2 * i) "") ++ " — " ++
        normalizeSpaces (blk.getD (2 * i + 1) "")) ∈ parseEducation blk := by
  induction blk using parseEducation.induct with
  | case1 =>
    intro i hi _ _
    simp at hi
  | case2 a =>
    intro i hi _ _
    simp at hi
  | case3 a b rest ih =>
    intro i hi h1 h2
    cases i with
    | zero =>
      have hga : (a :: b :: rest).getD 0 "" = a := rfl
      have hgb : (a :: b :: rest).getD 1 "" = b := rfl
      rw [show 2 * 0 = 0 from rfl] at h1 ⊢
      rw [show 2 * 0 + 1 = 1 from rfl] at h2 ⊢
      rw [hga] at h1 ⊢
      rw [hgb] at h2 ⊢
      show _ ∈ pairItem a b ++ parseEducation rest
      apply List.mem_append_left
      unfold pairItem
      rw [if_neg (by intro hc; exact h1 hc.1), if_pos ⟨h1, h2⟩]
      exact List.mem_singleton.mpr rfl
    | succ k =>
      have e1 : 2 * (k + 1) = 2 * k + 2 := by ring
      have hga : (a :: b :: rest).getD (2 * (k + 1)) "" = rest.getD (2 * k) "" := by
        rw [e1]
        rfl
      have hgb : (a :: b :: rest).getD (2 * (k + 1) + 1) "" = rest.getD (2 * k + 1) "" := by
        rw [e1]
        rfl
      rw [hga] at h1 ⊢
      rw [hgb] at h2 ⊢
      have hlt : 2 * k + 1 < rest.length := by
        have : (a :: b :: rest).length = rest.length + 2 := by simp [List.length_cons]
        rw [this, e1] at hi
        omega
      show _ ∈ pairItem a b ++ parseEducation rest
      exact List.mem_append_right _ (ih k hlt h1 h2)

/-- Counterexample to claim C6 as stated: a three-line block whose trailing
line is whitespace-only — the trailing line normalizes to the empty string
and is skipped, so the last output element is not the trailing line. -/
theorem claim_C6_counterexample :
    (["A", "B", " "].length % 2 = 1) ∧
    (parseEducation ["A", "B", " "]).getLast? ≠
      some (normalizeSpaces ((["A", "B", " "] : List String).getLastD "")) := by
  decide

/-- Claim C6 (amended): for every block with an odd number of lines whose
trailing line does not normalize to the empty string, the last output
element of `parseEducation` is that trailing line, whitespace-normalized and
emitted alone; and every pair whose two lines are both non-empty after
normalization is joined as `A — B` in the output. -/
theorem claim_C6_amended (blk : List String) :
    (blk.length % 2 = 1 → normalizeSpaces (blk.getLastD "") ≠ "" →
      (parseEducation blk).getLast? = some (normalizeSpaces (blk.getLastD ""))) ∧
    (∀ i, 2 * i + 1 < blk.length →
      normalizeSpaces (blk.getD (2 * i) "") ≠ "" →
      normalizeSpaces (blk.getD (2 * i + 1) "") ≠ "" →
      (normalizeSpaces (blk.getD (2 * i) "") ++ " — " ++
        normalizeSpaces (blk.getD (2 * i + 1) "")) ∈ parseEducation blk) :=
  ⟨parseEducation_getLast blk, parseEducation_mem_pair blk⟩

/-- Witness for the amended claim C6 on a concrete three-line block. -/
theorem claim_C6_witness :
    (parseEducation ["A", "B", "C"]).getLast? =
      some (normalizeSpaces ((["A", "B", "C"] : List String).getLastD "")) ∧
    (normalizeSpaces ((["A", "B", "C"] : List String).getD 0 "") ++ " — " ++
      normalizeSpaces ((["A", "B", "C"] : List String).getD 1 "")) ∈
        parseEducation ["A", "B", "C"] :=
  ⟨(claim_C6_amended ["A", "B", "C"]).1 (by decide) (by decide),
   (claim_C6_amended ["A", "B", "C"]).2 0 (by decide) (by decide) (by decide)⟩

/-!  Claim C4: no all-empty location record is ever emitted. -/

theorem normalizeSpaces_ne_empty_of_mem (s : String) (c : Char)
    (hm : c ∈ s.data) (hw : isWsC c = false) : normalizeSpaces s ≠ "" := by
  unfold normalizeSpaces
  intro h
  have hnil := (mk_eq_empty_iff _).mp h
  have hc1 : c ∈ collapseWs s.data := mem_collapseAux_of _ _ hm hw false
  exact trimL_ne_nil_of_mem _ _ hc1 hw hnil

theorem mem_locFilter (ls : List String) :
    ∀ x ∈ locFilter ls, x ≠ "" ∧ trimL x.data = x.data := by
  induction ls with
  | nil => intro x hx; simp [locFilter] at hx
  | cons l rest ih =>
    intro x hx
    by_cases h1 : jsTrim l = ""
    · have he : locFilter (l :: rest) = locFilter rest := by
        simp [locFilter, h1]
      rw [he] at hx
      exact ih x hx
    · by_cases h2 : isLocJunk (jsTrim l)
      · have he : locFilter (l :: rest) = locFilter rest := by
          simp [locFilter, h1, h2]
        rw [he] at hx
        exact ih x hx
      · by_cases h3 : isLocStop (jsTrim l)
        · have he : locFilter (l :: rest) = [] := by
            simp [locFilter, h1, h2, h3]
          rw [he] at hx
          simp at hx
        · have he : locFilter (l :: rest) = jsTrim l :: locFilter rest := by
            simp [locFilter, h1, h2, h3]
          rw [he] at hx
          rcases List.mem_cons.mp hx with h | h
          · subst h
            exact ⟨h1, trimL_idem l.data⟩
          · exact ih x h

/-- A trimmed non-empty line keeps a non-whitespace character after the
numeric-prefix strip and the whitespace normalization. -/
theorem stripNum_keeps_content (x : String) (hne : x ≠ "")
    (htr : trimL x.data = x.data) : normalizeSpaces (stripNum x) ≠ "" := by
  have hdata : x.data ≠ [] := by
    intro h
    exact hne (String.ext_iff.mpr h)
  obtain ⟨c, cs, hx⟩ : ∃ c cs, x.data = c :: cs := by
    cases hxd : x.data with
    | nil => exact absurd hxd hdata
    | cons c cs => exact ⟨c, cs, rfl⟩
  have hcw : isWsC c = false :=
    trimmed_head_not_ws x.data htr c (by rw [hx]; rfl)
  have hcm : c ∈ x.data := by rw [hx]; exact List.mem_cons_self c cs
  have hlast : ∃ e, x.data.getLast? = some e ∧ isWsC e = false := by
    obtain ⟨e, he⟩ : ∃ e, x.data.getLast? = some e := by
      rw [List.getLast?_eq_getLast_of_ne_nil hdata]
      exact ⟨_, rfl⟩
    exact ⟨e, he, trimmed_last_not_ws x.data htr e he⟩
  unfold stripNum
  by_cases hd : (x.data.takeWhile Char.isDigit).isEmpty
  · rw [if_pos hd]
    exact normalizeSpaces_ne_empty_of_mem x c hcm hcw
  · rw [if_neg hd]
    by_cases hw : ((x.data.drop (x.data.takeWhile Char.isDigit).length).takeWhile isWsC).isEmpty
    · rw [if_pos hw]
      exact normalizeSpaces_ne_empty_of_mem x c hcm hcw
    · rw [if_neg hw]
      set r := x.data.drop (x.data.takeWhile Char.isDigit).length with hrdef
      have hrne : r ≠ [] := by
        intro h
        rw [h] at hw
        simp [List.takeWhile] at hw
      obtain ⟨e, he, hew⟩ := hlast
      have hre : r.getLast? = some e := by
        rw [hrdef, getLast?_drop _ _ (by rw [← hrdef]; exact hrne)]
        exact he
      have hr2 : r.drop (r.takeWhile isWsC).length = r.dropWhile isWsC :=
        drop_takeWhile_length isWsC r
      rw [hr2]
      have hr2ne : r.dropWhile isWsC ≠ [] := by
        intro h
        have hall := List.dropWhile_eq_nil_iff.mp h
        have : isWsC e = true := hall e (getLast?_mem r e hre)
        rw [this] at hew
        exact absurd hew (by simp)
      obtain ⟨c2, cs2, hcs2⟩ : ∃ c2 cs2, r.dropWhile isWsC = c2 :: cs2 := by
        cases hh : r.dropWhile isWsC with
        | nil => exact absurd hh hr2ne
        | cons c2 cs2 => exact ⟨c2, cs2, rfl⟩
      have hc2w : isWsC c2 = false :=
        head?_dropWhile_not isWsC r c2 (by rw [hcs2]; rfl)
      have hc2m : c2 ∈ (String.mk (r.dropWhile isWsC)).data := by
        show c2 ∈ r.dropWhile isWsC
        rw [hcs2]
        exact List.mem_cons_self c2 cs2
      exact normalizeSpaces_ne_empty_of_mem _ c2 hc2m hc2w

theorem locLoop_nil (fuel : Nat) : locLoop fuel [] = [] := by
  cases fuel <;> rfl

/-- One iteration of the record-building loop either skips or emits a record
whose name is the normalized stripped head line, and recurses on a list of
lines drawn from the tail. -/
theorem locLoop_succ_shape (n : Nat) (l : String) (rest : List String) :
    ∃ m : List String, (∀ x ∈ m, x ∈ rest) ∧
      (locLoop (n + 1) (l :: rest) = locLoop n m ∨
       ∃ ad p f, locLoop (n + 1) (l :: rest) =
         ⟨normalizeSpaces (stripNum l), ad, p, f⟩ :: locLoop n m) := by
  simp only [locLoop]
  repeat' split
  all_goals
    first
      | (refine ⟨_, ?_, Or.inl rfl⟩
         intro x hx
         have hx2 := (List.dropWhile_sublist isPF).subset hx
         first
           | exact hx2
           | exact List.drop_subset _ _ hx2)
      | (refine ⟨_, ?_, Or.inr ⟨_, _, _, rfl⟩⟩
         intro x hx
         have hx2 := (List.dropWhile_sublist isPF).subset hx
         first
           | exact hx2
           | exact List.drop_subset _ _ hx2)

theorem locLoop_name_ne (fuel : Nat) :
    ∀ blk, (∀ x ∈ blk, x ≠ "" ∧ trimL x.data = x.data) →
      ∀ loc ∈ locLoop fuel blk, loc.name ≠ "" := by
  induction fuel with
  | zero =>
    intro blk hinv loc hloc
    simp [locLoop] at hloc
  | succ n ih =>
    intro blk hinv loc hloc
    cases blk with
    | nil => simp [locLoop] at hloc
    | cons l rest =>
      have hl := hinv l (List.mem_cons_self l rest)
      have hname : normalizeSpaces (stripNum l) ≠ "" :=
        stripNum_keeps_content l hl.1 hl.2
      obtain ⟨m, hm, hshape⟩ := locLoop_succ_shape n l rest
      have hminv : ∀ x ∈ m, x ≠ "" ∧ trimL x.data = x.data :=
        fun x hx => hinv x (List.mem_cons_of_mem _ (hm x hx))
      rcases hshape with he | ⟨ad, p, f, he⟩
      · rw [he] at hloc
        exact ih m hminv loc hloc
      · rw [he] at hloc
        rcases List.mem_cons.mp hloc with h2 | h2
        · subst h2
          simpa using hname
        · exact ih m hminv loc h2

/-- Claim C4: every emitted location record has at least one non-empty
field (in fact its name is always non-empty, since block lines are trimmed
and non-empty). -/
theorem claim_C4 (rawLines : List String) :
    ∀ loc ∈ parseLocations rawLines,
      loc.name ≠ "" ∨ loc.address ≠ "" ∨ loc.phone ≠ "" ∨ loc.fax ≠ "" := by
  intro loc hloc
  unfold parseLocations at hloc
  cases hA : afterLastLoc rawLines with
  | none =>
    rw [hA] at hloc
    simp at hloc
  | some rest =>
    rw [hA] at hloc
    left
    exact locLoop_name_ne _ _ (mem_locFilter rest) loc hloc

/-- Witness for claim C4 on the spec's own location example. -/
theorem claim_C4_witness :
    ((⟨"St. Example Clinic", "123 Main St", "555-1212", ""⟩ : LocationRecord) ∈
      parseLocations
        ["Locations", "St. Example Clinic", "123 Main St", "Phone: 555-1212"]) ∧
    ((⟨"St. Example Clinic", "123 Main St", "555-1212", ""⟩ : LocationRecord).name ≠ "" ∨
     (⟨"St. Example Clinic", "123 Main St", "555-1212", ""⟩ : LocationRecord).address ≠ "" ∨
     (⟨"St. Example Clinic", "123 Main St", "555-1212", ""⟩ : LocationRecord).phone ≠ "" ∨
     (⟨"St. Example Clinic", "123 Main St", "555-1212", ""⟩ : LocationRecord).fax ≠ "") :=
  ⟨by decide,
    claim_C4 ["Locations", "St. Example Clinic", "123 Main St", "Phone: 555-1212"]
      ⟨"St. Example Clinic", "123 Main St", "555-1212", ""⟩ (by decide)⟩

end PhysicianBio
